import Mathlib

/-!
Shallow embedding of the cmdline_words_parser crate (POSIX shell word
splitter, src/src/posix.rs and src/src/lib.rs) together with proofs about
its specification.  Buffers are lists of byte values (Nat, each intended
below 256).  The iterator state is the unconsumed window; next() scans it
with an escape-mode state machine, compacts literal bytes in place, eats a
trailing run of plain spaces, and splits the processed region off the
front.
-/

namespace CmdlineWordsParser

/-- Escape modes of the scanner, from enum PosixEscapeMode in posix.rs. -/
inductive PosixEscapeMode where
  | Outer
  | OuterSlash
  | SingleQuote
  | SingleQuoteSlash
  | DoubleQuote
  | DoubleQuoteSlash
deriving DecidableEq

/-- Result of processing one byte in the scan loop: either break out of
the loop (a separator was hit in Outer mode), or continue with a new mode
and an optional literal output byte. -/
inductive StepOut where
  | brk : StepOut
  | out : PosixEscapeMode → Option Nat → StepOut
deriving DecidableEq

/-- One iteration of the match in PosixShellWords::next (posix.rs lines
52-133): given the current mode and the byte read at position i, decide
whether to break (separator in Outer mode) and otherwise compute the next
mode and the optional emitted byte.  Byte values: 32 space, 9 tab,
10 newline, 13 carriage return, 92 backslash, 39 single quote,
34 double quote, 110 n, 114 r, 116 t. -/
def posixStep : PosixEscapeMode → Nat → StepOut
  | .Outer, b =>
    if b = 32 then .brk
    else if b = 9 ∨ b = 10 ∨ b = 13 then .brk
    else if b = 92 then .out .OuterSlash none
    else if b = 39 then .out .SingleQuote none
    else if b = 34 then .out .DoubleQuote none
    else .out .Outer (some b)
  | .OuterSlash, b =>
    .out .Outer
      (if b = 32 ∨ b = 9 ∨ b = 10 ∨ b = 13 ∨ b = 39 ∨ b = 34 ∨ b = 92 then some b
       else if b = 110 then some 10
       else if b = 114 then some 13
       else if b = 116 then some 9
       else none)
  | .SingleQuote, b =>
    if b = 92 then .out .SingleQuoteSlash none
    else if b = 39 then .out .Outer none
    else .out .SingleQuote (some b)
  | .SingleQuoteSlash, b =>
    .out .SingleQuote (if b = 39 ∨ b = 92 then some b else none)
  | .DoubleQuote, b =>
    if b = 92 then .out .DoubleQuoteSlash none
    else if b = 34 then .out .Outer none
    else .out .DoubleQuote (some b)
  | .DoubleQuoteSlash, b =>
    .out .DoubleQuote
      (if b = 39 ∨ b = 34 ∨ b = 92 then some b
       else if b = 110 then some 10
       else if b = 114 then some 13
       else if b = 116 then some 9
       else none)

/-- The scan loop of next() (posix.rs lines 49-142).  The Rust loop runs
the read index i from 0 to the window length; here the remaining
iteration count is carried as a structural fuel argument (the caller
passes the window length, so the loop visits exactly the indices
0..length as in the source).  Returns (mutated window, outpos, endpos):
endpos is the break position, or the window length when no separator was
hit.  On an emitted byte b, when outpos differs from i the source first
zeroes position i (defensive mangling) and then stores b at outpos. -/
def scanGo : Nat → List Nat → Nat → Nat → PosixEscapeMode → List Nat × Nat × Nat
  | 0, buf, _, outpos, _ => (buf, outpos, buf.length)
  | fuel+1, buf, i, outpos, mode =>
    if h : i < buf.length then
      match posixStep mode (buf.get ⟨i, h⟩) with
      | .brk => (buf, outpos, i)
      | .out m none => scanGo fuel buf (i+1) outpos m
      | .out m (some b) =>
        if outpos ≠ i then
          scanGo fuel ((buf.set i 0).set outpos b) (i+1) (outpos+1) m
        else
          scanGo fuel buf (i+1) (outpos+1) m
    else (buf, outpos, buf.length)

/-- The separator consumption loop of next() (posix.rs lines 143-147):
while endpos is in range and the byte there is a plain space, zero it and
advance.  Structural fuel bounds the iteration count; the caller passes
the window length, which always suffices since endpos grows each step. -/
def consumeGo : Nat → List Nat → Nat → List Nat × Nat
  | 0, buf, e => (buf, e)
  | fuel+1, buf, e =>
    if h : e < buf.length then
      if buf.get ⟨e, h⟩ = 32 then consumeGo fuel (buf.set e 0) (e+1)
      else (buf, e)
    else (buf, e)

/-- split_off_front_inplace_mut (lib.rs lines 104-108): detach the first
idx elements, keep the tail as the new window. -/
def split_off_front_inplace (buf : List Nat) (idx : Nat) : List Nat × List Nat :=
  (buf.take idx, buf.drop idx)

/-- The body of PosixShellWords::next up to the byte level: none when the
window is empty (posix.rs lines 40-43), otherwise the mutated window
together with outpos and the final endpos. -/
def posixNextRaw (buf : List Nat) : Option (List Nat × Nat × Nat) :=
  if buf.length = 0 then none
  else
    match scanGo buf.length buf 0 0 .Outer with
    | (b1, outpos, endpos0) =>
      match consumeGo b1.length b1 endpos0 with
      | (b2, endpos) => some (b2, outpos, endpos)

/-- PosixShellWords::next for byte-slice output ([u8] instantiation,
where from_bytes always succeeds): returns the word (the first outpos
bytes of the detached endpos-byte front region, posix.rs line 149) and
the new window. -/
def posixNext (buf : List Nat) : Option (List Nat × List Nat) :=
  match posixNextRaw buf with
  | none => none
  | some (b2, outpos, endpos) =>
    let s := split_off_front_inplace b2 endpos
    some (s.1.take outpos, s.2)

/-- One transition of the standard UTF-8 validation automaton
(RFC 3629 byte ranges).  State 0 accepts; states 1, 2, 3 expect that
many plain continuation bytes (0x80 to 0xBF); states 4 to 7 are the
constrained first-continuation states after 0xE0, 0xED, 0xF0, 0xF4. -/
def utf8Next (st b : Nat) : Option Nat :=
  if st = 0 then
    if b < 128 then some 0
    else if 194 ≤ b ∧ b ≤ 223 then some 1
    else if b = 224 then some 4
    else if 225 ≤ b ∧ b ≤ 236 then some 2
    else if b = 237 then some 5
    else if 238 ≤ b ∧ b ≤ 239 then some 2
    else if b = 240 then some 6
    else if 241 ≤ b ∧ b ≤ 243 then some 3
    else if b = 244 then some 7
    else none
  else if st = 1 then if 128 ≤ b ∧ b < 192 then some 0 else none
  else if st = 2 then if 128 ≤ b ∧ b < 192 then some 1 else none
  else if st = 3 then if 128 ≤ b ∧ b < 192 then some 2 else none
  else if st = 4 then if 160 ≤ b ∧ b < 192 then some 1 else none
  else if st = 5 then if 128 ≤ b ∧ b < 160 then some 1 else none
  else if st = 6 then if 144 ≤ b ∧ b < 192 then some 2 else none
  else if st = 7 then if 128 ≤ b ∧ b < 144 then some 2 else none
  else none

/-- Run of the UTF-8 validation automaton over a byte list. -/
def utf8Run : List Nat → Nat → Bool
  | [], st => st == 0
  | b :: rest, st =>
    match utf8Next st b with
    | none => false
    | some st2 => utf8Run rest st2

/-- UTF-8 validity of a byte list, used to model str::from_utf8 in
StrExtOut::from_bytes (lib.rs lines 76-80). -/
def isValidUtf8 (l : List Nat) : Bool := utf8Run l 0

/-- PosixShellWords::next for str output: the word bytes must re-encode
as valid UTF-8 (StrExtOut::from_bytes for str); the inner none models
the from_bytes failure, on which the source panics through expect
(posix.rs line 150). -/
def posixNextStr (buf : List Nat) : Option (Option (List Nat) × List Nat) :=
  match posixNextRaw buf with
  | none => none
  | some (b2, outpos, endpos) =>
    let s := split_off_front_inplace b2 endpos
    let w := s.1.take outpos
    some ((if isValidUtf8 w then some w else none), s.2)

/-- Iterate next() collecting the produced words; none when the fuel runs
out before the iterator reports absence.  A result some ws means the
iterator yielded exactly the words ws and then returned absence. -/
def posixWordsAux : Nat → List Nat → Option (List (List Nat))
  | 0, _ => none
  | n+1, buf =>
    match posixNext buf with
    | none => some []
    | some (w, rest) => (posixWordsAux n rest).map (fun ws => w :: ws)

/-- Global-buffer view of one call to next(): the iterator window is the
suffix of the full buffer g starting at offset s.  Returns the updated
full buffer, the new window start, and outpos (the word occupies
positions s to s+outpos of the updated buffer). -/
def nextG (g : List Nat) (s : Nat) : Option (List Nat × Nat × Nat) :=
  match posixNextRaw (g.drop s) with
  | none => none
  | some (b2, outpos, endpos) => some (g.take s ++ b2, s + endpos, outpos)

/-- Iterate nextG n times from a global state (buffer, window start);
absence leaves the state unchanged. -/
def iterG : Nat → List Nat × Nat → List Nat × Nat
  | 0, st => st
  | n+1, st =>
    match nextG st.1 st.2 with
    | none => st
    | some (g2, s2, _) => iterG n (g2, s2)

/-- Modelled from the spec (section 8, first bullet): splitting a byte
list on runs of space bytes, producing no empty leading or trailing
token.  Structural fuel, instantiated with length + 1 below. -/
def specWordsGo : Nat → List Nat → List (List Nat)
  | 0, _ => []
  | fuel+1, l =>
    match l.dropWhile (fun b => b == 32) with
    | [] => []
    | b :: t =>
      (b :: t).takeWhile (fun c => !(c == 32)) ::
        specWordsGo fuel ((b :: t).dropWhile (fun c => !(c == 32)))

/-- Modelled from the spec: the word list obtained by splitting on runs
of the space byte, with empty tokens never produced. -/
def specWords (l : List Nat) : List (List Nat) := specWordsGo (l.length + 1) l

/-- Modelled from the spec (section 4.1): the Outer-mode escape table as
the spec words describe it. -/
def specOuterSlashOut (b : Nat) : Option Nat :=
  if b ∈ [32, 9, 10, 13, 39, 34, 92] then some b
  else if b = 110 then some 10
  else if b = 114 then some 13
  else if b = 116 then some 9
  else none

/-- Modelled from the spec (section 4.1): the DoubleQuote escape table as
the spec words describe it. -/
def specDoubleQuoteSlashOut (b : Nat) : Option Nat :=
  if b ∈ [39, 34, 92] then some b
  else if b = 110 then some 10
  else if b = 114 then some 13
  else if b = 116 then some 9
  else none

/-- A byte that is neither a backslash, a quote, a double quote, nor one
of the separator bytes tab, newline, carriage return.  Space is allowed:
these are the bytes of the quote-free splitting claim restricted to
space separators. -/
def plainByte (b : Nat) : Prop :=
  b ≠ 92 ∧ b ≠ 39 ∧ b ≠ 34 ∧ b ≠ 9 ∧ b ≠ 10 ∧ b ≠ 13

instance plainByteDecidable (b : Nat) : Decidable (plainByte b) := by
  unfold plainByte
  infer_instance

/-! ### Basic helper lemmas -/

theorem take_length_takeWhile (p : Nat → Bool) :
    ∀ l : List Nat, l.take (l.takeWhile p).length = l.takeWhile p := by
  intro l
  induction l with
  | nil => rfl
  | cons a t ih =>
    by_cases hpa : p a
    · rw [List.takeWhile_cons_of_pos hpa, List.length_cons, List.take_succ_cons, ih]
    · rw [List.takeWhile_cons_of_neg hpa]
      rfl

theorem drop_length_takeWhile (p : Nat → Bool) :
    ∀ l : List Nat, l.drop (l.takeWhile p).length = l.dropWhile p := by
  intro l
  induction l with
  | nil => rfl
  | cons a t ih =>
    by_cases hpa : p a
    · rw [List.takeWhile_cons_of_pos hpa, List.dropWhile_cons_of_pos hpa, List.length_cons,
        List.drop_succ_cons, ih]
    · rw [List.takeWhile_cons_of_neg hpa, List.dropWhile_cons_of_neg hpa]
      rfl

theorem take_eq_of_agree (a b : List Nat) (n : Nat)
    (h : ∀ j, j < n → a[j]? = b[j]?) : a.take n = b.take n := by
  apply List.ext_getElem?
  intro m
  rw [List.getElem?_take, List.getElem?_take]
  split
  · rename_i hm
    exact h m hm
  · rfl

theorem drop_eq_of_agree (a b : List Nat) (n : Nat)
    (h : ∀ j, n ≤ j → a[j]? = b[j]?) : a.drop n = b.drop n := by
  apply List.ext_getElem?
  intro m
  rw [List.getElem?_drop, List.getElem?_drop]
  exact h (n + m) (by omega)

theorem dropWhile_idem (p : Nat → Bool) :
    ∀ l : List Nat, (l.dropWhile p).dropWhile p = l.dropWhile p := by
  intro l
  induction l with
  | nil => rfl
  | cons a t ih =>
    by_cases hpa : p a
    · rw [List.dropWhile_cons_of_pos hpa]
      exact ih
    · simp [List.dropWhile_cons_of_neg hpa]

theorem head?_dropWhile_ne (p : Nat → Bool) (l : List Nat) (b : Nat)
    (h : (l.dropWhile p).head? = some b) : p b = false := by
  have hm := List.head?_dropWhile_not p l
  rw [h] at hm
  exact hm

theorem length_dropWhile_le (p : Nat → Bool) (l : List Nat) :
    (l.dropWhile p).length ≤ l.length :=
  (List.dropWhile_sublist p).length_le

/-- The separator consumption loop stops immediately on a byte that is
not a plain space. -/
theorem consumeGo_stop (fuel : Nat) (buf : List Nat) (e : Nat) (he : e < buf.length)
    (hne : buf.get ⟨e, he⟩ ≠ 32) : consumeGo fuel buf e = (buf, e) := by
  cases fuel with
  | zero => rfl
  | succ fuel =>
    rw [consumeGo, dif_pos he, if_neg hne]

/-- Full characterisation of the separator consumption loop: it advances
endpos by exactly the length of the run of space bytes at endpos,
zeroing only those positions (all other positions are unchanged). -/
theorem consumeGo_run (fuel : Nat) :
    ∀ (buf : List Nat) (e : Nat) (bufr : List Nat) (er : Nat),
      consumeGo fuel buf e = (bufr, er) →
      e ≤ buf.length → buf.length - e ≤ fuel →
      er = e + ((buf.drop e).takeWhile (fun b => b == 32)).length ∧
      bufr.length = buf.length ∧
      (∀ j, j < e → bufr[j]? = buf[j]?) ∧
      (∀ j, er ≤ j → bufr[j]? = buf[j]?) := by
  induction fuel with
  | zero =>
    intro buf e bufr er hres h1 h2
    obtain ⟨rfl, rfl⟩ : buf = bufr ∧ e = er := by simpa [consumeGo] using hres
    have hd : buf.drop e = [] := List.drop_eq_nil_of_le (by omega)
    refine ⟨by rw [hd]; simp, rfl, fun j _ => rfl, fun j _ => rfl⟩
  | succ fuel ih =>
    intro buf e bufr er hres h1 h2
    rw [consumeGo] at hres
    split at hres
    · rename_i hlt
      split at hres
      · rename_i hsp
        obtain ⟨a1, a2, a3, a4⟩ :=
          ih (buf.set e 0) (e+1) bufr er hres (by simp; omega) (by simp; omega)
        have hdropset : (buf.set e 0).drop (e+1) = buf.drop (e+1) := by
          apply List.ext_getElem?
          intro m
          rw [List.getElem?_drop, List.getElem?_drop]
          exact List.getElem?_set_ne (by omega)
        rw [hdropset] at a1
        have hdrop0 : buf.drop e = 32 :: buf.drop (e+1) := by
          have hget : (buf[e] : Nat) = 32 := hsp
          rw [List.drop_eq_getElem_cons hlt, hget]
        have her : er = e + 1 + ((buf.drop (e+1)).takeWhile (fun b => b == 32)).length := a1
        refine ⟨?_, ?_, ?_, ?_⟩
        · rw [hdrop0, List.takeWhile_cons_of_pos (by simp), List.length_cons]
          omega
        · rw [a2]
          simp
        · intro j hj
          rw [a3 j (by omega)]
          exact List.getElem?_set_ne (by omega)
        · intro j hj
          rw [a4 j hj]
          exact List.getElem?_set_ne (by omega)
      · rename_i hnsp
        obtain ⟨rfl, rfl⟩ : buf = bufr ∧ e = er := by simpa using hres
        have hdrop0 : buf.drop e = buf.get ⟨e, hlt⟩ :: buf.drop (e+1) :=
          List.drop_eq_getElem_cons hlt
        refine ⟨?_, rfl, fun j _ => rfl, fun j _ => rfl⟩
        rw [hdrop0, List.takeWhile_cons_of_neg (by simpa using hnsp)]
        simp
    · obtain ⟨rfl, rfl⟩ : buf = bufr ∧ e = er := by simpa using hres
      have hd : buf.drop e = [] := List.drop_eq_nil_of_le (by omega)
      refine ⟨by rw [hd]; simp, rfl, fun j _ => rfl, fun j _ => rfl⟩

theorem posixNext_isSome (buf : List Nat) (h : buf ≠ []) :
    ∃ w rest, posixNext buf = some (w, rest) := by
  have hlen : ¬ buf.length = 0 := by simpa using h
  simp only [posixNext, posixNextRaw, if_neg hlen]
  exact ⟨_, _, rfl⟩

/-- Invariants of the scan loop: when the write cursor does not exceed
the read cursor, the final outpos does not exceed the final endpos, the
final endpos lies between i and the window length, and writes do not
change the window length. -/
theorem scanGo_inv (fuel : Nat) :
    ∀ (buf : List Nat) (i outpos : Nat) (mode : PosixEscapeMode)
      (bufr : List Nat) (outr endr : Nat),
      scanGo fuel buf i outpos mode = (bufr, outr, endr) →
      outpos ≤ i → i ≤ buf.length →
      outr ≤ endr ∧ i ≤ endr ∧ endr ≤ buf.length ∧ bufr.length = buf.length := by
  induction fuel with
  | zero =>
    intro buf i outpos mode bufr outr endr hres h1 h2
    obtain ⟨rfl, rfl, rfl⟩ : buf = bufr ∧ outpos = outr ∧ buf.length = endr := by
      simpa [scanGo] using hres
    exact ⟨by omega, by omega, by omega, rfl⟩
  | succ fuel ih =>
    intro buf i outpos mode bufr outr endr hres h1 h2
    rw [scanGo] at hres
    split at hres
    · rename_i h
      split at hres
      · obtain ⟨rfl, rfl, rfl⟩ : buf = bufr ∧ outpos = outr ∧ i = endr := by
          simpa using hres
        exact ⟨by omega, by omega, by omega, rfl⟩
      · rename_i m _
        obtain ⟨a1, a2, a3, a4⟩ :=
          ih buf (i+1) outpos m bufr outr endr hres (by omega) (by omega)
        exact ⟨a1, by omega, a3, a4⟩
      · rename_i m b _
        split at hres
        · obtain ⟨a1, a2, a3, a4⟩ :=
            ih ((buf.set i 0).set outpos b) (i+1) (outpos+1) m bufr outr endr hres
              (by omega) (by simp; omega)
          simp only [List.length_set] at a3 a4
          exact ⟨a1, by omega, a3, a4⟩
        · obtain ⟨a1, a2, a3, a4⟩ :=
            ih buf (i+1) (outpos+1) m bufr outr endr hres (by omega) (by omega)
          exact ⟨a1, by omega, a3, a4⟩
    · obtain ⟨rfl, rfl, rfl⟩ : buf = bufr ∧ outpos = outr ∧ buf.length = endr := by
        simpa using hres
      exact ⟨by omega, by omega, by omega, rfl⟩

/-- Invariants of the separator consumption loop: endpos only grows,
stays within the window, and the window length is unchanged. -/
theorem consumeGo_inv (fuel : Nat) :
    ∀ (buf : List Nat) (e : Nat) (bufr : List Nat) (er : Nat),
      consumeGo fuel buf e = (bufr, er) → e ≤ buf.length →
      e ≤ er ∧ er ≤ buf.length ∧ bufr.length = buf.length := by
  induction fuel with
  | zero =>
    intro buf e bufr er hres h
    obtain ⟨rfl, rfl⟩ : buf = bufr ∧ e = er := by simpa [consumeGo] using hres
    exact ⟨le_refl _, h, rfl⟩
  | succ fuel ih =>
    intro buf e bufr er hres h
    rw [consumeGo] at hres
    split at hres
    · rename_i hlt
      split at hres
      · obtain ⟨a1, a2, a3⟩ := ih (buf.set e 0) (e+1) bufr er hres (by simp; omega)
        simp only [List.length_set] at a2 a3
        exact ⟨by omega, a2, a3⟩
      · obtain ⟨rfl, rfl⟩ : buf = bufr ∧ e = er := by simpa using hres
        exact ⟨le_refl _, h, rfl⟩
    · obtain ⟨rfl, rfl⟩ : buf = bufr ∧ e = er := by simpa using hres
      exact ⟨le_refl _, h, rfl⟩

/-- Structural facts delivered by a successful posixNextRaw call:
outpos does not exceed endpos, endpos does not exceed the (unchanged)
window length, and the window was non-empty. -/
theorem posixNextRaw_facts (buf b2 : List Nat) (o e : Nat)
    (h : posixNextRaw buf = some (b2, o, e)) :
    o ≤ e ∧ e ≤ b2.length ∧ b2.length = buf.length ∧ buf ≠ [] := by
  by_cases h0 : buf.length = 0
  · rw [posixNextRaw, if_pos h0] at h
    exact absurd h (by simp)
  · have hne : buf ≠ [] := fun hh => h0 (by simp [hh])
    rcases hscan : scanGo buf.length buf 0 0 .Outer with ⟨b1, o1, e0⟩
    rcases hcons : consumeGo b1.length b1 e0 with ⟨b2x, ex⟩
    rw [posixNextRaw, if_neg h0, hscan] at h
    dsimp only at h
    rw [hcons] at h
    dsimp only at h
    obtain ⟨s1, s2, s3, s4⟩ :=
      scanGo_inv buf.length buf 0 0 .Outer b1 o1 e0 hscan (le_refl 0) (Nat.zero_le _)
    obtain ⟨t1, t2, t3⟩ := consumeGo_inv b1.length b1 e0 b2x ex hcons (by omega)
    obtain ⟨rfl, rfl, rfl⟩ : b2x = b2 ∧ o1 = o ∧ ex = e := by simpa using h
    refine ⟨by omega, by omega, by omega, hne⟩

/-- Every byte emitted by the state machine is either the byte read or
one of the control bytes newline, carriage return, tab. -/
theorem posixStep_emit (mode : PosixEscapeMode) (b : Nat) (m : PosixEscapeMode) (c : Nat)
    (h : posixStep mode b = .out m (some c)) :
    c = b ∨ c = 9 ∨ c = 10 ∨ c = 13 := by
  cases mode <;> simp only [posixStep] at h <;> split_ifs at h <;> simp_all

/-- The scan loop maps an all-ASCII window to an all-ASCII window: it
only writes zero bytes or emitted bytes. -/
theorem scanGo_ascii (fuel : Nat) :
    ∀ (buf : List Nat) (i outpos : Nat) (mode : PosixEscapeMode)
      (bufr : List Nat) (outr endr : Nat),
      scanGo fuel buf i outpos mode = (bufr, outr, endr) →
      (∀ x ∈ buf, x < 128) → ∀ x ∈ bufr, x < 128 := by
  induction fuel with
  | zero =>
    intro buf i outpos mode bufr outr endr hres hb
    obtain ⟨rfl, -, -⟩ : buf = bufr ∧ outpos = outr ∧ buf.length = endr := by
      simpa [scanGo] using hres
    exact hb
  | succ fuel ih =>
    intro buf i outpos mode bufr outr endr hres hb
    rw [scanGo] at hres
    split at hres
    · rename_i h
      rcases hstep : posixStep mode (buf.get ⟨i, h⟩) with _ | ⟨m, ob⟩
      · rw [hstep] at hres
        dsimp only at hres
        obtain ⟨rfl, -, -⟩ : buf = bufr ∧ outpos = outr ∧ i = endr := by
          simpa using hres
        exact hb
      · rcases ob with _ | b
        · rw [hstep] at hres
          dsimp only at hres
          exact ih buf (i+1) outpos m bufr outr endr hres hb
        · rw [hstep] at hres
          dsimp only at hres
          split at hres
          · refine ih ((buf.set i 0).set outpos b) (i+1) (outpos+1) m bufr outr endr hres ?_
            intro x hx
            rcases List.mem_or_eq_of_mem_set hx with hx' | rfl
            · rcases List.mem_or_eq_of_mem_set hx' with hx'' | rfl
              · exact hb x hx''
              · omega
            · rcases posixStep_emit mode (buf.get ⟨i, h⟩) m x hstep with hc | hc | hc | hc
              · rw [hc]; exact hb _ (buf.get_mem _ _)
              · omega
              · omega
              · omega
          · exact ih buf (i+1) (outpos+1) m bufr outr endr hres hb
    · obtain ⟨rfl, -, -⟩ : buf = bufr ∧ outpos = outr ∧ buf.length = endr := by
        simpa using hres
      exact hb

/-- The separator consumption loop maps an all-ASCII window to an
all-ASCII window: it only writes zero bytes. -/
theorem consumeGo_ascii (fuel : Nat) :
    ∀ (buf : List Nat) (e : Nat) (bufr : List Nat) (er : Nat),
      consumeGo fuel buf e = (bufr, er) →
      (∀ x ∈ buf, x < 128) → ∀ x ∈ bufr, x < 128 := by
  induction fuel with
  | zero =>
    intro buf e bufr er hres hb
    obtain ⟨rfl, -⟩ : buf = bufr ∧ e = er := by simpa [consumeGo] using hres
    exact hb
  | succ fuel ih =>
    intro buf e bufr er hres hb
    rw [consumeGo] at hres
    split at hres
    · split at hres
      · refine ih (buf.set e 0) (e+1) bufr er hres ?_
        intro x hx
        rcases List.mem_or_eq_of_mem_set hx with hx' | rfl
        · exact hb x hx'
        · omega
      · obtain ⟨rfl, -⟩ : buf = bufr ∧ e = er := by simpa using hres
        exact hb
    · obtain ⟨rfl, -⟩ : buf = bufr ∧ e = er := by simpa using hres
      exact hb

/-- An all-ASCII byte list is valid UTF-8. -/
theorem isValidUtf8_of_ascii : ∀ l : List Nat, (∀ x ∈ l, x < 128) → isValidUtf8 l = true := by
  intro l
  induction l with
  | nil => intro _; rfl
  | cons b t ih =>
    intro h
    have hb : b < 128 := h b (List.mem_cons_self _ _)
    have hstep : utf8Next 0 b = some 0 := by simp [utf8Next, hb]
    show utf8Run (b :: t) 0 = true
    rw [utf8Run, hstep]
    exact ih (fun x hx => h x (List.mem_cons_of_mem _ hx))

/-- On a window of plain bytes the scan loop stays in Outer mode, emits
every byte in place (no writes), and stops at the first space or at the
window end: outpos and endpos both equal the starting index plus the
length of the space-free run there. -/
theorem scanGo_plain (fuel : Nat) :
    ∀ (l : List Nat) (i : Nat),
      fuel = l.length - i → i ≤ l.length →
      (∀ j, i ≤ j → ∀ (hj : j < l.length), plainByte (l.get ⟨j, hj⟩)) →
      scanGo fuel l i i .Outer =
        (l, i + ((l.drop i).takeWhile (fun b => !(b == 32))).length,
            i + ((l.drop i).takeWhile (fun b => !(b == 32))).length) := by
  induction fuel with
  | zero =>
    intro l i hf h1 hp
    have hd : l.drop i = [] := List.drop_eq_nil_of_le (by omega)
    have hi : l.length = i := by omega
    rw [scanGo, hd, hi]
    simp
  | succ fuel ih =>
    intro l i hf h1 hp
    have hlt : i < l.length := by omega
    have hpb := hp i (le_refl i) hlt
    obtain ⟨p1, p2, p3, p4, p5, p6⟩ := hpb
    rw [scanGo, dif_pos hlt]
    by_cases h32 : l.get ⟨i, hlt⟩ = 32
    · have hstep : posixStep .Outer (l.get ⟨i, hlt⟩) = .brk := by
        rw [h32]
        decide
      rw [hstep]
      dsimp only
      have hd : l.drop i = 32 :: l.drop (i+1) := by
        have hget : (l[i] : Nat) = 32 := h32
        rw [List.drop_eq_getElem_cons hlt, hget]
      rw [hd, List.takeWhile_cons_of_neg (by simp)]
      simp
    · have q0 : (l[i] : Nat) ≠ 32 := h32
      have q1 : (l[i] : Nat) ≠ 92 := p1
      have q2 : (l[i] : Nat) ≠ 39 := p2
      have q3 : (l[i] : Nat) ≠ 34 := p3
      have q4 : (l[i] : Nat) ≠ 9 := p4
      have q5 : (l[i] : Nat) ≠ 10 := p5
      have q6 : (l[i] : Nat) ≠ 13 := p6
      have hstep : posixStep .Outer (l.get ⟨i, hlt⟩) =
          .out .Outer (some (l.get ⟨i, hlt⟩)) := by
        simp [posixStep, q0, q1, q2, q3, q4, q5, q6]
      rw [hstep]
      dsimp only
      rw [if_neg (by omega)]
      have ht : (l.drop i).takeWhile (fun b => !(b == 32)) =
          l.get ⟨i, hlt⟩ :: (l.drop (i+1)).takeWhile (fun b => !(b == 32)) := by
        conv_lhs => rw [List.drop_eq_getElem_cons hlt]
        rw [List.takeWhile_cons_of_pos (by simp [q0])]
        rfl
      rw [ih l (i+1) (by omega) (by omega) (fun j hj hj2 => hp j (by omega) hj2), ht]
      simp only [List.length_cons, Prod.mk.injEq]
      exact ⟨trivial, by omega, by omega⟩

/-- next() on a non-empty window of plain bytes: the word is the leading
space-free run and the new window is what follows the run of spaces
after it. -/
theorem posixNext_plain (l : List Nat) (hne : l ≠ [])
    (h : ∀ b ∈ l, plainByte b) :
    posixNext l = some (l.takeWhile (fun b => !(b == 32)),
      (l.dropWhile (fun b => !(b == 32))).dropWhile (fun b => b == 32)) := by
  have h0 : ¬ l.length = 0 := by simpa using hne
  have hscan : scanGo l.length l 0 0 .Outer =
      (l, (l.takeWhile (fun b => !(b == 32))).length,
          (l.takeWhile (fun b => !(b == 32))).length) := by
    have hs := scanGo_plain l.length l 0 (by omega) (by omega)
      (fun j hj hj2 => h _ (l.get_mem _ _))
    simpa using hs
  have hkle : (l.takeWhile (fun b => !(b == 32))).length ≤ l.length :=
    (List.takeWhile_sublist _).length_le
  rcases hcons : consumeGo l.length l (l.takeWhile (fun b => !(b == 32))).length
    with ⟨b2, e⟩
  obtain ⟨r1, r2, r3, r4⟩ := consumeGo_run l.length l _ b2 e hcons hkle (by omega)
  have hke : (l.takeWhile (fun b => !(b == 32))).length ≤ e := by omega
  rw [posixNext, posixNextRaw, if_neg h0, hscan]
  dsimp only
  rw [hcons]
  dsimp only [split_off_front_inplace]
  have hword : (b2.take e).take (l.takeWhile (fun b => !(b == 32))).length
      = l.takeWhile (fun b => !(b == 32)) := by
    rw [List.take_take, Nat.min_eq_left hke]
    rw [take_eq_of_agree b2 l _ (fun j hj => r3 j hj)]
    exact take_length_takeWhile _ l
  have hrest : b2.drop e =
      (l.dropWhile (fun b => !(b == 32))).dropWhile (fun b => b == 32) := by
    rw [drop_eq_of_agree b2 l e (fun j hj => r4 j hj), r1, ← List.drop_drop,
      drop_length_takeWhile (fun b => !(b == 32)) l,
      drop_length_takeWhile (fun b => b == 32) (l.dropWhile (fun b => !(b == 32)))]
  rw [hword, hrest]

theorem specWordsGo_step_length (l t : List Nat) (b : Nat)
    (h : l.dropWhile (fun c => c == 32) = b :: t) :
    ((b :: t).dropWhile (fun c => !(c == 32))).length < l.length := by
  have hb : (b == 32) = false := head?_dropWhile_ne _ l b (by rw [h]; rfl)
  have h1 : (b :: t).dropWhile (fun c => !(c == 32)) = t.dropWhile (fun c => !(c == 32)) :=
    List.dropWhile_cons_of_pos (by simp [hb])
  have h2 := length_dropWhile_le (fun c => !(c == 32)) t
  have h3 : (b :: t).length ≤ l.length := by
    rw [← h]
    exact length_dropWhile_le _ _
  rw [h1]
  simp only [List.length_cons] at h3
  omega

theorem specWordsGo_fuel :
    ∀ (f1 : Nat) (l : List Nat) (f2 : Nat), l.length < f1 → l.length < f2 →
      specWordsGo f1 l = specWordsGo f2 l := by
  intro f1
  induction f1 with
  | zero =>
    intro l f2 h1 h2
    omega
  | succ f1 ih =>
    intro l f2 h1 h2
    cases f2 with
    | zero => omega
    | succ f2 =>
      rw [specWordsGo, specWordsGo]
      cases hd : l.dropWhile (fun b => b == 32) with
      | nil => rfl
      | cons b t =>
        dsimp only
        have hlen := specWordsGo_step_length l t b hd
        rw [ih ((b :: t).dropWhile (fun c => !(c == 32))) f2 (by omega) (by omega)]

theorem specWordsGo_dropSpaces (f : Nat) (x : List Nat) :
    specWordsGo (f+1) x = specWordsGo (f+1) (x.dropWhile (fun b => b == 32)) := by
  rw [specWordsGo, specWordsGo, dropWhile_idem]

theorem specWords_dropSpaces (l : List Nat) :
    specWords l = specWords (l.dropWhile (fun b => b == 32)) := by
  rw [specWords, specWords, specWordsGo_dropSpaces l.length l]
  exact specWordsGo_fuel (l.length + 1) _ _
    (by have := length_dropWhile_le (fun b => b == 32) l; omega)
    (by omega)

theorem specWords_cons_word (a : Nat) (t : List Nat) (ha : (a == 32) = false) :
    specWords (a :: t) =
      (a :: t).takeWhile (fun c => !(c == 32)) ::
        specWords (((a :: t).dropWhile (fun c => !(c == 32))).dropWhile (fun b => b == 32)) := by
  have hd : (a :: t).dropWhile (fun b => b == 32) = a :: t :=
    List.dropWhile_cons_of_neg (by simp [ha])
  have hstep := specWordsGo_step_length (a :: t) t a hd
  have hstep2 := length_dropWhile_le (fun b => b == 32)
    ((a :: t).dropWhile (fun c => !(c == 32)))
  rw [specWords, specWordsGo, hd]
  dsimp only
  congr 1
  have hlen : (a :: t).length = t.length + 1 := rfl
  rw [hlen, specWordsGo_dropSpaces t.length, specWords]
  simp only [List.length_cons] at hstep
  exact specWordsGo_fuel (t.length + 1) _ _ (by omega) (by omega)

/-- On quote-free, backslash-free, space-only-separator inputs, the full
iteration yields the space-run-split words, preceded by one empty word
when the input starts with a space. -/
theorem posixWords_plain (n : Nat) :
    ∀ l : List Nat, l.length < n → (∀ b ∈ l, plainByte b) →
      posixWordsAux n l =
        some ((if l.head? = some 32 then [[]] else []) ++ specWords l) := by
  induction n with
  | zero =>
    intro l h hp
    omega
  | succ n ih =>
    intro l hlen hp
    cases l with
    | nil => rfl
    | cons a t =>
      have hnext := posixNext_plain (a :: t) (by simp) hp
      rw [posixWordsAux, hnext]
      dsimp only
      have hrlen : (((a :: t).dropWhile (fun b => !(b == 32))).dropWhile
          (fun b => b == 32)).length < (a :: t).length := by
        by_cases ha : (a == 32) = true
        · have h1 : (a :: t).dropWhile (fun b => !(b == 32)) = a :: t :=
            List.dropWhile_cons_of_neg (by simp [ha])
          have h2 : (a :: t).dropWhile (fun b => b == 32) = t.dropWhile (fun b => b == 32) := by
            rw [List.dropWhile_cons]
            simp [ha]
          rw [h1, h2]
          have := length_dropWhile_le (fun b => b == 32) t
          simp only [List.length_cons]
          omega
        · have ha' : (a == 32) = false := by
            revert ha
            cases (a == 32) <;> simp
          have h1 : (a :: t).dropWhile (fun b => !(b == 32)) =
              t.dropWhile (fun b => !(b == 32)) :=
            List.dropWhile_cons_of_pos (by simp [ha'])
          rw [h1]
          have h2 := length_dropWhile_le (fun b => b == 32)
            (t.dropWhile (fun b => !(b == 32)))
          have h3 := length_dropWhile_le (fun b => !(b == 32)) t
          simp only [List.length_cons]
          omega
      have hrp : ∀ b ∈ ((a :: t).dropWhile (fun b => !(b == 32))).dropWhile
          (fun b => b == 32), plainByte b := fun b hb =>
        hp b ((List.dropWhile_sublist _).subset ((List.dropWhile_sublist _).subset hb))
      have hih := ih _ (by omega) hrp
      rw [hih]
      simp only [Option.map_some']
      have hrhead : ¬ (((a :: t).dropWhile (fun b => !(b == 32))).dropWhile
          (fun b => b == 32)).head? = some 32 := by
        intro hh
        have hb := head?_dropWhile_ne (fun b => b == 32) _ 32 hh
        simp at hb
      rw [if_neg hrhead]
      simp only [List.nil_append]
      by_cases ha : (a == 32) = true
      · have haeq : a = 32 := by simpa using ha
        have htw : (a :: t).takeWhile (fun b => !(b == 32)) = [] :=
          List.takeWhile_cons_of_neg (by simp [ha])
        have hhead : (a :: t).head? = some 32 := by rw [List.head?_cons, haeq]
        rw [if_pos hhead, htw]
        have h1 : (a :: t).dropWhile (fun b => !(b == 32)) = a :: t :=
          List.dropWhile_cons_of_neg (by simp [ha])
        rw [h1, ← specWords_dropSpaces]
        rfl
      · have ha' : (a == 32) = false := by
          revert ha
          cases (a == 32) <;> simp
        have hhead : ¬ (a :: t).head? = some 32 := by
          rw [List.head?_cons]
          intro hh
          have haeq : a = 32 := by simpa using hh
          rw [haeq] at ha'
          simp at ha'
        rw [if_neg hhead]
        simp only [List.nil_append]
        rw [specWords_cons_word a t ha']

/-! ### Claim theorems -/

/-- C10: next() returns absence if and only if the window is empty at the
moment of the call; every call on a non-empty window returns some word,
and absence on the empty window is stable. -/
theorem c10_absence_iff_empty :
    posixNext ([] : List Nat) = none ∧
    (∀ buf : List Nat, buf ≠ [] → ∃ w rest, posixNext buf = some (w, rest)) ∧
    (∀ buf : List Nat, posixNext buf = none → buf = []) := by
  refine ⟨rfl, fun buf h => posixNext_isSome buf h, fun buf h => ?_⟩
  by_contra hne
  obtain ⟨w, r, hw⟩ := posixNext_isSome buf hne
  rw [hw] at h
  exact Option.noConfusion h

/-- Witness for C10 at the concrete window [97]. -/
theorem c10_absence_iff_empty_witness :
    ∃ w rest, posixNext [97] = some (w, rest) :=
  c10_absence_iff_empty.2.1 [97] (by decide)

/-- C2 is violated by the code: on the input "a TAB b" the iterator
never reaches absence.  Once the window starts with a tab byte, next()
returns an empty word and leaves the window unchanged, so iteration
diverges: no fuel suffices to reach the absence signal. -/
theorem c2_tab_divergence :
    (∀ n : Nat, posixWordsAux n [97, 9, 98] = none) ∧
    posixNext [9, 98] = some ([], [9, 98]) := by
  have hstuck : posixNext [9, 98] = some ([], [9, 98]) := by decide
  have hloop : ∀ n, posixWordsAux n [9, 98] = none := by
    intro n
    induction n with
    | zero => rfl
    | succ n ih => simp [posixWordsAux, hstuck, ih]
  refine ⟨fun n => ?_, hstuck⟩
  cases n with
  | zero => rfl
  | succ n =>
    have h1 : posixNext [97, 9, 98] = some ([97], [9, 98]) := by decide
    simp [posixWordsAux, h1, hloop n]

/-- C4: inside a single-quoted region, a backslash followed by a quote
or a backslash emits that byte literally, and a backslash followed by
any other byte emits nothing; end to end, the input consisting of
quote a backslash q b quote produces the single word "ab". -/
theorem c4_single_quote_escape :
    posixStep .SingleQuote 92 = .out .SingleQuoteSlash none ∧
    posixStep .SingleQuoteSlash 39 = .out .SingleQuote (some 39) ∧
    posixStep .SingleQuoteSlash 92 = .out .SingleQuote (some 92) ∧
    (∀ b : Nat, b ≠ 39 → b ≠ 92 → posixStep .SingleQuoteSlash b = .out .SingleQuote none) ∧
    posixWordsAux 2 [39, 97, 92, 113, 98, 39] = some [[97, 98]] := by
  refine ⟨by decide, by decide, by decide, ?_, by decide⟩
  intro b h39 h92
  simp [posixStep, h39, h92]

/-- Witness for C4 at the concrete escaped byte 113 (q). -/
theorem c4_single_quote_escape_witness :
    posixStep .SingleQuoteSlash 113 = .out .SingleQuote none :=
  c4_single_quote_escape.2.2.2.1 113 (by decide) (by decide)

/-- C5: the Outer-mode and DoubleQuote-mode escape tables agree with the
tables the spec describes, for every byte value. -/
theorem c5_escape_tables (b : Nat) :
    posixStep .OuterSlash b = .out .Outer (specOuterSlashOut b) ∧
    posixStep .DoubleQuoteSlash b = .out .DoubleQuote (specDoubleQuoteSlashOut b) := by
  constructor <;>
    simp only [posixStep, specOuterSlashOut, specDoubleQuoteSlashOut, List.mem_cons,
      List.not_mem_nil, or_false]

/-- C6: an unterminated quote or trailing escape is not an error.  The
input "abc 'def" yields exactly the words "abc" and "def" and then
absence; the input "a backslash" (trailing escape) yields the word "a"
and then absence. -/
theorem c6_unterminated_quote :
    posixWordsAux 3 [97, 98, 99, 32, 39, 100, 101, 102] =
      some [[97, 98, 99], [100, 101, 102]] ∧
    posixWordsAux 2 [97, 92] = some [[97]] :=
  ⟨by decide, by decide⟩

/-- C8: for every word produced by next(), outpos does not exceed the
structural span endpos, which does not exceed the window length, so the
slice of the first outpos bytes of the detached endpos-byte region is in
bounds and the word length is exactly outpos. -/
theorem c8_word_length_in_bounds (buf b2 : List Nat) (o e : Nat)
    (h : posixNextRaw buf = some (b2, o, e)) :
    o ≤ e ∧ e ≤ b2.length ∧ b2.length = buf.length ∧
      ((split_off_front_inplace b2 e).1.take o).length = o := by
  obtain ⟨h1, h2, h3, _⟩ := posixNextRaw_facts buf b2 o e h
  refine ⟨h1, h2, h3, ?_⟩
  simp only [split_off_front_inplace, List.length_take]
  omega

/-- Witness for C8 at the concrete window "a b". -/
theorem c8_word_length_in_bounds_witness :
    (1 : Nat) ≤ 2 ∧ 2 ≤ ([97, 0, 98] : List Nat).length ∧
      ([97, 0, 98] : List Nat).length = ([97, 32, 98] : List Nat).length ∧
      ((split_off_front_inplace [97, 0, 98] 2).1.take 1).length = 1 :=
  c8_word_length_in_bounds [97, 32, 98] [97, 0, 98] 1 2 (by decide)

/-- Later iterations of the global iterator never move the window start
backwards and never modify bytes below any bound p that is below the
current window start. -/
theorem iterG_frame (n : Nat) :
    ∀ (g : List Nat) (s p : Nat), p ≤ s →
      p ≤ (iterG n (g, s)).2 ∧
      ∀ j, j < p → (iterG n (g, s)).1[j]? = g[j]? := by
  induction n with
  | zero => exact fun g s p hp => ⟨hp, fun j hj => rfl⟩
  | succ n ih =>
    intro g s p hp
    rw [iterG]
    cases hng : nextG g s with
    | none => exact ⟨hp, fun j hj => rfl⟩
    | some gso =>
      obtain ⟨g2, s2, o2⟩ := gso
      rcases hraw : posixNextRaw (g.drop s) with _ | ⟨⟨b2, o, e⟩⟩
      · rw [nextG, hraw] at hng
        exact absurd hng (by simp)
      · rw [nextG, hraw] at hng
        dsimp only at hng
        obtain ⟨rfl, rfl, rfl⟩ : g.take s ++ b2 = g2 ∧ s + e = s2 ∧ o = o2 := by
          simpa using hng
        obtain ⟨f1, f2, f3, f4⟩ := posixNextRaw_facts _ _ _ _ hraw
        have hs : s < g.length := by
          by_contra hh
          exact f4 (List.drop_eq_nil_of_le (by omega))
        obtain ⟨b1, b2⟩ := ih (g.take s ++ b2) (s + e) p (by omega)
        refine ⟨b1, fun j hj => ?_⟩
        rw [b2 j hj]
        rw [List.getElem?_append_left (by simp; omega)]
        exact List.getElem?_take_of_lt (by omega)

/-- C7: once a word has been returned by next(), its bytes are never
written again: in the global-buffer view, the word returned by a call
starting at offset s occupies positions s to s + outpos, which lie at or
below the new window start, and every subsequent call leaves all
positions below that start unchanged and only moves the start forward. -/
theorem c7_no_overwrite (g g2 : List Nat) (s s2 o : Nat)
    (h : nextG g s = some (g2, s2, o)) :
    s ≤ s2 ∧ s + o ≤ s2 ∧ s2 ≤ g2.length ∧ g2.length = g.length ∧
    ∀ n : Nat, s2 ≤ (iterG n (g2, s2)).2 ∧
      ∀ j, j < s2 → (iterG n (g2, s2)).1[j]? = g2[j]? := by
  rcases hraw : posixNextRaw (g.drop s) with _ | ⟨⟨b2, oo, e⟩⟩
  · rw [nextG, hraw] at h
    exact absurd h (by simp)
  · rw [nextG, hraw] at h
    dsimp only at h
    obtain ⟨f1, f2, f3, f4⟩ := posixNextRaw_facts _ _ _ _ hraw
    obtain ⟨rfl, rfl, rfl⟩ : g.take s ++ b2 = g2 ∧ s + e = s2 ∧ oo = o := by
      simpa using h
    have hs : s < g.length := by
      by_contra hh
      exact f4 (List.drop_eq_nil_of_le (by omega))
    have hdlen : b2.length = g.length - s := by
      rw [f3]; simp
    have hg2len : (g.take s ++ b2).length = g.length := by
      simp
      omega
    refine ⟨by omega, by omega, by rw [hg2len]; omega, hg2len, ?_⟩
    exact fun n => iterG_frame n (g.take s ++ b2) (s + e) (s + e) (le_refl _)

/-- Witness for C7 at the concrete buffer "a b" with window start 0. -/
theorem c7_no_overwrite_witness :
    (0 : Nat) ≤ 2 ∧ 0 + 1 ≤ 2 ∧ 2 ≤ ([97, 0, 98] : List Nat).length ∧
      ([97, 0, 98] : List Nat).length = ([97, 32, 98] : List Nat).length ∧
      ∀ n : Nat, 2 ≤ (iterG n ([97, 0, 98], 2)).2 ∧
        ∀ j, j < 2 → (iterG n ([97, 0, 98], 2)).1[j]? = ([97, 0, 98] : List Nat)[j]? :=
  c7_no_overwrite [97, 32, 98] [97, 0, 98] 0 2 1 (by decide)

/-- C9 fails on the code: the valid UTF-8 input backslash 0xC3 0xA9
(a backslash followed by a two-byte character) produces the word [0xA9],
which is not valid UTF-8, so the re-encoding failure branch of next()
is reachable even though the initial buffer is validly encoded. -/
theorem c9_counterexample :
    isValidUtf8 [92, 195, 169] = true ∧
    posixNext [92, 195, 169] = some ([169], []) ∧
    isValidUtf8 [169] = false ∧
    posixNextStr [92, 195, 169] = some (none, []) :=
  ⟨by decide, by decide, by decide, by decide⟩

/-- C9 amended: when the initial buffer is all-ASCII, every call either
reports absence or returns a word that re-encodes successfully, with the
word and the remaining window again all-ASCII (hence validly encoded);
under this restricted precondition the re-encoding failure branch is
unreachable. -/
theorem c9_ascii_amended (buf : List Nat) (h : ∀ b ∈ buf, b < 128) :
    posixNextStr buf = none ∨
      ∃ w rest, posixNextStr buf = some (some w, rest) ∧
        (∀ b ∈ w, b < 128) ∧ (∀ b ∈ rest, b < 128) ∧ isValidUtf8 w = true := by
  rcases hraw : posixNextRaw buf with _ | ⟨⟨b2, o, e⟩⟩
  · left
    rw [posixNextStr, hraw]
  · right
    have hb2 : ∀ x ∈ b2, x < 128 := by
      by_cases h0 : buf.length = 0
      · rw [posixNextRaw, if_pos h0] at hraw
        exact absurd hraw (by simp)
      · rcases hscan : scanGo buf.length buf 0 0 .Outer with ⟨b1, o1, e0⟩
        rcases hcons : consumeGo b1.length b1 e0 with ⟨b2x, ex⟩
        rw [posixNextRaw, if_neg h0, hscan] at hraw
        dsimp only at hraw
        rw [hcons] at hraw
        dsimp only at hraw
        obtain ⟨rfl, -, -⟩ : b2x = b2 ∧ o1 = o ∧ ex = e := by simpa using hraw
        exact consumeGo_ascii b1.length b1 e0 _ _ hcons
          (scanGo_ascii buf.length buf 0 0 .Outer b1 o1 e0 hscan h)
    have hw : ∀ x ∈ (b2.take e).take o, x < 128 := fun x hx =>
      hb2 x (List.take_subset _ _ (List.take_subset _ _ hx))
    have hrest : ∀ x ∈ b2.drop e, x < 128 := fun x hx =>
      hb2 x (List.drop_subset _ _ hx)
    have hv := isValidUtf8_of_ascii _ hw
    refine ⟨(b2.take e).take o, b2.drop e, ?_, hw, hrest, hv⟩
    rw [posixNextStr, hraw]
    dsimp only [split_off_front_inplace]
    rw [if_pos hv]

/-- C1 fails on the code: the all-separator input consisting of a single
space byte produces one empty word, not zero words. -/
theorem c1_counterexample :
    posixWordsAux 2 [32] = some [[]] ∧ some [[]] ≠ some ([] : List (List Nat)) :=
  ⟨by decide, by decide⟩

/-- C1 amended: for inputs containing no backslash, quote, double quote,
tab, newline, or carriage return bytes, the produced words are the
tokens of splitting on runs of space bytes, except that an input
beginning with a space yields one extra leading empty word; in
particular an all-space input yields exactly one empty word, and
trailing space runs never yield a trailing empty word. -/
theorem c1_amended (l : List Nat) (h : ∀ b ∈ l, plainByte b) :
    posixWordsAux (l.length + 1) l =
      some ((if l.head? = some 32 then [[]] else []) ++ specWords l) :=
  posixWords_plain (l.length + 1) l (Nat.lt_succ_self _) h

/-- Witness for the amended C1 at the concrete input "a b". -/
theorem c1_amended_witness : posixWordsAux 4 [97, 32, 98] = some [[97], [98]] := by
  have h := c1_amended [97, 32, 98] (by decide)
  exact h.trans (by decide)

/-- C3: the trailing separator consumption advances endpos past a run
of plain space bytes only, never past a tab, newline, or carriage
return; consequently a call to next() whose window begins with such a
byte scans it as the first byte of the next token, which immediately
terminates an empty token (the window does not advance). -/
theorem c3_space_run_only :
    (∀ (buf : List Nat) (e b : Nat) (he : e < buf.length),
        buf.get ⟨e, he⟩ = b → (b = 9 ∨ b = 10 ∨ b = 13) →
        consumeGo buf.length buf e = (buf, e)) ∧
    (∀ (buf : List Nat) (e : Nat), e ≤ buf.length →
        (consumeGo buf.length buf e).2 =
          e + ((buf.drop e).takeWhile (fun b => b == 32)).length) ∧
    (∀ (w : List Nat) (b : Nat), w.head? = some b → (b = 9 ∨ b = 10 ∨ b = 13) →
        posixNext w = some ([], w)) := by
  refine ⟨?_, ?_, ?_⟩
  · intro buf e b he hb hsep
    apply consumeGo_stop buf.length buf e he
    rw [hb]
    rcases hsep with rfl | rfl | rfl <;> decide
  · intro buf e he
    rcases hcons : consumeGo buf.length buf e with ⟨br, er⟩
    obtain ⟨r1, -, -, -⟩ := consumeGo_run buf.length buf e br er hcons he (by omega)
    exact r1
  · intro w b hw hb
    cases w with
    | nil => simp at hw
    | cons a t =>
      have ha : a = b := by simpa using hw
      subst ha
      rcases hb with rfl | rfl | rfl <;>
        simp [posixNext, posixNextRaw, scanGo, consumeGo, posixStep, split_off_front_inplace]

/-- Witness for C3 at concrete inputs: a window starting with a tab is
not advanced past, and a window starting with spaces is advanced past
the full space run. -/
theorem c3_space_run_only_witness :
    consumeGo ([9, 98] : List Nat).length [9, 98] 0 = ([9, 98], 0) ∧
    (consumeGo ([32, 97] : List Nat).length [32, 97] 0).2 =
      0 + ((([32, 97] : List Nat).drop 0).takeWhile (fun b => b == 32)).length ∧
    posixNext [9, 10] = some ([], [9, 10]) :=
  ⟨c3_space_run_only.1 [9, 98] 0 9 (by decide) (by decide) (Or.inl rfl),
   c3_space_run_only.2.1 [32, 97] 0 (by decide),
   c3_space_run_only.2.2 [9, 10] 9 (by decide) (Or.inl rfl)⟩

/-- Witness for the amended C9 at the concrete all-ASCII buffer [97]. -/
theorem c9_ascii_amended_witness :
    posixNextStr [97] = none ∨
      ∃ w rest, posixNextStr [97] = some (some w, rest) ∧
        (∀ b ∈ w, b < 128) ∧ (∀ b ∈ rest, b < 128) ∧ isValidUtf8 w = true :=
  c9_ascii_amended [97] (by decide)

end CmdlineWordsParser
